import Mathlib

/-!
Verification of the "hosts" module of gvm-libs (src/base/openvas_hosts.c).

The C code is shallowly embedded: strings are lists of characters, machine
integers are natural numbers reduced modulo 2^32 where the C code would wrap,
the glib list is a Lean list, and the external resolver (getaddrinfo) is an
explicit oracle argument.  Every definition is translated from the source
file; definitions whose names start with `spec` restate the natural-language
specification and are only used to compare against the source translation.
-/

namespace OpenvasHosts

/-! ### Character classification (ctype.h, C locale) -/

/-- C `isdigit` in the C locale. -/
def isDigitC (c : Char) : Bool := '0' ≤ c && c ≤ '9'

/-- C `isspace` in the C locale: space, tab, newline, vertical tab, form feed,
carriage return. -/
def cIsSpace (c : Char) : Bool :=
  c = ' ' || c = '\t' || c = '\n' || c = '\x0b' || c = '\x0c' || c = '\r'

/-- C `isalnum` in the C locale. -/
def isAlnumC (c : Char) : Bool :=
  ('0' ≤ c && c ≤ '9') || ('a' ≤ c && c ≤ 'z') || ('A' ≤ c && c ≤ 'Z')

/-- C `isxdigit` in the C locale. -/
def isXdigitC (c : Char) : Bool :=
  ('0' ≤ c && c ≤ '9') || ('a' ≤ c && c ≤ 'f') || ('A' ≤ c && c ≤ 'F')

/-- Decimal value of a digit character. -/
def digVal (c : Char) : Nat := c.toNat - '0'.toNat

/-- Value of a hexadecimal digit character (after `tolower`). -/
def hexVal (c : Char) : Nat :=
  if '0' ≤ c && c ≤ '9' then c.toNat - '0'.toNat
  else if 'a' ≤ c && c ≤ 'f' then c.toNat - 'a'.toNat + 10
  else c.toNat - 'A'.toNat + 10

/-- Numeric value of a digit string, most significant digit first (the value
`strtol` accumulates while consuming digits). -/
def digitsVal (ds : List Char) : Nat := ds.foldl (fun a c => a * 10 + digVal c) 0

/-! ### C standard library string helpers -/

/-- C `strchr`: split a string at the first occurrence of `c`, yielding the
part before it and the part after it, or `none` when `c` does not occur. -/
def splitFirst (c : Char) : List Char → Option (List Char × List Char)
  | [] => none
  | x :: xs =>
    if x = c then some ([], xs)
    else
      match splitFirst c xs with
      | none => none
      | some (a, b) => some (x :: a, b)

/-- C `strtol(s, &p, 10)`: skip leading whitespace, read an optional sign and
then a greedy run of decimal digits; return the value and the unconsumed rest
(`p`).  When no digit is found there is no conversion and `p` is reset to the
whole input.  (C clamps the value to LONG_MAX/LONG_MIN on overflow; every call
site in this file only compares the result against bounds below 256 and so
cannot distinguish the clamped value from the exact one modelled here.) -/
def strtol10 (l : List Char) : Int × List Char :=
  let l1 := l.dropWhile cIsSpace
  let neg := l1.head? == some '-'
  let l2 := if l1.head? == some '-' || l1.head? == some '+' then l1.tail else l1
  let ds := l2.takeWhile isDigitC
  if ds = [] then (0, l)
  else ((if neg then -(digitsVal ds : Int) else (digitsVal ds : Int)),
        l2.dropWhile isDigitC)

/-- C `atoi`, defined via `strtol` base 10. -/
def atoiC (l : List Char) : Int := (strtol10 l).1

/-! ### inet_pton (glibc) -/

/-- Core loop of glibc `inet_pton4`: per-octet accumulation with the
leading-zero rejection (`saw_digit && *tp == 0`), the 255 bound, at most four
octets, separator `'.'` only after a digit.  `cur` is the octet being built,
`saw` whether it has at least one digit, `octets` how many octets have been
started, and `acc` the completed octets. -/
def pton4Go : List Char → Nat → Bool → Nat → List Nat → Option (List Nat)
  | [], cur, _saw, octets, acc =>
    if octets = 4 then some (acc ++ [cur]) else none
  | ch :: rest, cur, saw, octets, acc =>
    if isDigitC ch then
      if saw && decide (cur = 0) then none
      else if cur * 10 + digVal ch > 255 then none
      else if !saw then
        if octets + 1 > 4 then none
        else pton4Go rest (cur * 10 + digVal ch) true (octets + 1) acc
      else pton4Go rest (cur * 10 + digVal ch) true octets acc
    else if ch = '.' && saw then
      if octets = 4 then none else pton4Go rest 0 false octets (acc ++ [cur])
    else none

/-- glibc `inet_pton(AF_INET, ...)`: returns the four address bytes in network
order, or `none` when the string is not a valid dotted-quad literal. -/
def inet_pton4 (l : List Char) : Option (List Nat) := pton4Go l 0 false 0 []

/-- Numeric (host byte order) value of the four address bytes, as obtained by
`ntohl` on the stored `s_addr`. -/
def addrOfBytes : List Nat → Nat
  | [a, b, c, d] => ((a * 256 + b) * 256 + c) * 256 + d
  | _ => 0

/-- The four network-order bytes of a 32-bit address value (`htonl`). -/
def natToBytes4 (n : Nat) : List Nat :=
  [n / 2 ^ 24 % 256, n / 2 ^ 16 % 256, n / 2 ^ 8 % 256, n % 256]

/-- State of the glibc `inet_pton6` loop: `acc` the completed bytes, `colonp`
the byte position of a `::` if one was seen, `val` and `sawX` the group being
accumulated, `curtok` the suffix starting after the last `':'` (used for an
embedded dotted-quad part). -/
structure Pton6State where
  acc : List Nat
  colonp : Option Nat
  val : Nat
  sawX : Bool
  curtok : List Char

/-- End-of-loop handling of glibc `inet_pton6`: flush a pending group, then
expand a `::` by inserting zero bytes at its recorded position; without `::`
exactly sixteen bytes must have been produced. -/
def pton6Finish (st : Pton6State) : Option (List Nat) :=
  let acc :=
    if st.sawX then
      if st.acc.length + 2 > 16 then none
      else some (st.acc ++ [st.val / 256, st.val % 256])
    else some st.acc
  match acc with
  | none => none
  | some bytes =>
    match st.colonp with
    | some cp =>
      if bytes.length = 16 then none
      else some (bytes.take cp ++ List.replicate (16 - bytes.length) 0 ++ bytes.drop cp)
    | none => if bytes.length = 16 then some bytes else none

/-- Main loop of glibc `inet_pton6` over the remaining characters. -/
def pton6Go : List Char → Pton6State → Option (List Nat)
  | [], st => pton6Finish st
  | ch :: rest, st =>
    if isXdigitC ch then
      if st.val * 16 + hexVal ch > 0xffff then none
      else pton6Go rest { st with val := st.val * 16 + hexVal ch, sawX := true }
    else if ch = ':' then
      if !st.sawX then
        match st.colonp with
        | some _ => none
        | none => pton6Go rest { st with colonp := some st.acc.length, curtok := rest }
      else if rest = [] then none
      else if st.acc.length + 2 > 16 then none
      else pton6Go rest { acc := st.acc ++ [st.val / 256, st.val % 256],
                          colonp := st.colonp, val := 0, sawX := false, curtok := rest }
    else if ch = '.' then
      if st.acc.length + 4 ≤ 16 then
        match inet_pton4 st.curtok with
        | some b4 => pton6Finish { st with acc := st.acc ++ b4, sawX := false }
        | none => none
      else none
    else none

/-- glibc `inet_pton(AF_INET6, ...)`: returns the sixteen address bytes or
`none`.  A leading `':'` is only allowed when immediately followed by another
`':'` (the first of the two is skipped and the second starts the loop). -/
def inet_pton6 (l : List Char) : Option (List Nat) :=
  if l.head? = some ':' then
    if l.tail.head? = some ':' then
      pton6Go l.tail { acc := [], colonp := none, val := 0, sawX := false, curtok := l.tail }
    else none
  else pton6Go l { acc := [], colonp := none, val := 0, sawX := false, curtok := l }

/-! ### Address predicates and token checks (openvas_hosts.c) -/

/-- Source `is_ipv4_address`: `inet_pton(AF_INET, str, ...) == 1`. -/
def is_ipv4_address (l : List Char) : Bool := (inet_pton4 l).isSome

/-- Source `is_ipv6_address`: `inet_pton(AF_INET6, str, ...) == 1`. -/
def is_ipv6_address (l : List Char) : Bool := (inet_pton6 l).isSome

/-- Source `is_cidr_block`: split at the first `'/'`; the left part must be an
IPv4 literal, the right part must start with a digit and `strtol` must consume
it entirely yielding a value in [1,30]. -/
def is_cidr_block (l : List Char) : Bool :=
  match splitFirst '/' l with
  | none => false
  | some (addr_str, block_str) =>
    if !is_ipv4_address addr_str then false
    else if !block_str.head?.elim false isDigitC then false
    else
      let r := strtol10 block_str
      decide (r.2 = []) && decide (0 < r.1) && decide (r.1 ≤ 30)

/-- Source `cidr_get_block`: `sscanf(str, "%*[0-9.]/%2u", &block)`.  The
`%*[0-9.]` set consumes a nonempty greedy run of digits and dots, then a
literal `'/'` must follow, then `%2u` reads at most two digits.  (The
whitespace and sign handling of `%u` is omitted: the only caller runs after
`is_cidr_block`, which guarantees a digit directly after the `'/'`.) -/
def cidr_get_block (l : List Char) : Option Nat :=
  let pre := l.takeWhile (fun c => isDigitC c || c = '.')
  let rest := l.dropWhile (fun c => isDigitC c || c = '.')
  if pre = [] then none
  else if rest.head? = some '/' then
    let ds := (rest.tail.takeWhile isDigitC).take 2
    if ds = [] then none else some (digitsVal ds)
  else none

/-- Source `cidr_get_ip`: the part before the first `'/'`, parsed as IPv4. -/
def cidr_get_ip (l : List Char) : Option Nat :=
  match splitFirst '/' l with
  | none => none
  | some (addr_str, _) =>
    match inet_pton4 addr_str with
    | none => none
    | some bytes => some (addrOfBytes bytes)

/-- Network mask of a prefix length as the source computes it:
`0xffffffff ^ ((1 << (32 - block)) - 1)` (for block = 0 the C shift by 32 is
undefined behaviour; the model uses the untruncated value, and every theorem
below stays in the range [1,30] where C and model agree). -/
def cidrMask (block : Nat) : Nat := 0xffffffff ^^^ (2 ^ (32 - block) - 1)

/-- Source `cidr_block_ips`: first usable address is the network address plus
one, last is first plus the usable host count minus one, all in 32-bit
arithmetic. -/
def cidr_block_ips (l : List Char) : Option (Nat × Nat) :=
  match cidr_get_block l with
  | none => none
  | some block =>
    match cidr_get_ip l with
    | none => none
    | some ip =>
      let first := ((ip &&& cidrMask block) + 1) % 2 ^ 32
      let last := (first + 2 ^ (32 - block) - 3) % 2 ^ 32
      some (first, last)

/-- Source `is_long_range_network`: split at the first `'-'`; both parts must
be IPv4 literals. -/
def is_long_range_network (l : List Char) : Bool :=
  match splitFirst '-' l with
  | none => false
  | some (first_str, second_str) =>
    is_ipv4_address first_str && is_ipv4_address second_str

/-- Source `long_range_network_ips`: the two bounds parsed independently. -/
def long_range_network_ips (l : List Char) : Option (Nat × Nat) :=
  match splitFirst '-' l with
  | none => none
  | some (first_str, last_str) =>
    match inet_pton4 first_str, inet_pton4 last_str with
    | some b1, some b2 => some (addrOfBytes b1, addrOfBytes b2)
    | _, _ => none

/-- Source `is_short_range_network`: split at the first `'-'`; the left part
must be an IPv4 literal, the right part must start with a digit and `strtol`
must consume it entirely yielding a value in [0,255]. -/
def is_short_range_network (l : List Char) : Bool :=
  match splitFirst '-' l with
  | none => false
  | some (ip_str, end_str) =>
    if !is_ipv4_address ip_str then false
    else if !end_str.head?.elim false isDigitC then false
    else
      let r := strtol10 end_str
      decide (r.2 = []) && decide (0 ≤ r.1) && decide (r.1 ≤ 255)

/-- Source `short_range_network_ips`: last address keeps the upper three
octets of the first and replaces the last octet by `atoi` of the suffix (the
sum taken in 32-bit arithmetic, as `htonl` truncates it). -/
def short_range_network_ips (l : List Char) : Option (Nat × Nat) :=
  match splitFirst '-' l with
  | none => none
  | some (first_str, last_str) =>
    match inet_pton4 first_str with
    | none => none
    | some b1 =>
      let first := addrOfBytes b1
      let last := (((first &&& 0xffffff00 : Nat) : Int) + atoiC last_str).emod (2 ^ 32)
      some (first, last.toNat)

/-- Source `is_hostname`: only alphanumerics, `'-'`, `'_'`, `'.'`, and fewer
than 256 characters.  (The empty string passes this check, but construction
skips empty tokens before classification.) -/
def is_hostname (l : List Char) : Bool :=
  l.all (fun c => isAlnumC c || c = '-' || c = '_' || c = '.') && decide (l.length < 256)

/-! ### Host types (openvas_hosts.h enumeration, in the order of the
`host_type_str` table) -/

def HOST_TYPE_NAME : Int := 0
def HOST_TYPE_IPV4 : Int := 1
def HOST_TYPE_IPV6 : Int := 2
def HOST_TYPE_CIDR_BLOCK : Int := 3
def HOST_TYPE_RANGE_SHORT : Int := 4
def HOST_TYPE_RANGE_LONG : Int := 5

/-- Source `determine_host_type`: the fixed priority order of the checks. -/
def determine_host_type (l : List Char) : Int :=
  if l = [] then -1
  else if is_ipv4_address l then HOST_TYPE_IPV4
  else if is_ipv6_address l then HOST_TYPE_IPV6
  else if is_cidr_block l then HOST_TYPE_CIDR_BLOCK
  else if is_short_range_network l then HOST_TYPE_RANGE_SHORT
  else if is_long_range_network l then HOST_TYPE_RANGE_LONG
  else if is_hostname l then HOST_TYPE_NAME
  else -1

/-! ### Host objects and collections -/

/-- One `openvas_host_t`.  `g_malloc0` zeroes the object, so the fields not
covered by the active type keep their zero defaults.  `addr` is the IPv4
address in host byte order (the stored network-order `s_addr` read through
`ntohl`); `addr6` is the sixteen bytes of `s6_addr`. -/
structure OHost where
  type_ : Int
  name : List Char := []
  addr : Nat := 0
  addr6 : List Nat := List.replicate 16 0
deriving DecidableEq

/-- Diagnostics the construction writes to stderr. -/
inductive LogMsg where
  /-- "ERROR - %s: Inversed limits." -/
  | invLimits (tok : List Char)
  /-- "ERROR - %s: Invalid host string." -/
  | invalidHost (tok : List Char)
deriving DecidableEq

/-- One `openvas_hosts_t`.  The glib list is a Lean list; the `current`
iterator pointer is the index of the cursor element; `logs` records the
diagnostics printed to stderr while the collection was built. -/
structure OHosts where
  orig_str : List Char
  hosts : List OHost
  removed : Nat
  current : Nat
  logs : List LogMsg
deriving DecidableEq

/-- Source `openvas_host_equal`: equal types and equal payload of that type;
any other type never compares equal. -/
def openvas_host_equal (h h2 : OHost) : Bool :=
  if h.type_ ≠ h2.type_ then false
  else if h.type_ = HOST_TYPE_IPV4 then h.addr = h2.addr
  else if h.type_ = HOST_TYPE_IPV6 then h.addr6 = h2.addr6
  else if h.type_ = HOST_TYPE_NAME then h.name = h2.name
  else false

/-- Core of source `openvas_hosts_remove_duplicates`: for each element, delete
every later element that compares equal to it, incrementing `removed` once per
deletion, then continue with the first survivor.  The outer loop visits at
most as many nodes as the list holds, which bounds the recursion (`fuel`,
started at the list length below). -/
def removeDupsGoF : Nat → List OHost → Nat → List OHost × Nat
  | 0, l, removed => (l, removed)
  | fuel + 1, l, removed =>
    match l with
    | [] => ([], removed)
    | h :: t =>
      let kept := t.filter (fun x => !openvas_host_equal h x)
      let res := removeDupsGoF fuel kept (removed + (t.length - kept.length))
      (h :: res.1, res.2)

/-- The pairwise scan started on the whole list. -/
def removeDupsGo (l : List OHost) (removed : Nat) : List OHost × Nat :=
  removeDupsGoF l.length l removed

/-- Source `openvas_hosts_remove_duplicates`: run the pairwise scan and reset
the iterator to the start. -/
def openvas_hosts_remove_duplicates (c : OHosts) : OHosts :=
  let r := removeDupsGo c.hosts c.removed
  { c with hosts := r.1, removed := r.2, current := 0 }

/-- The expansion loop of `openvas_hosts_new`: starting from `current`, while
the address does not exceed `last`, prepend it as an IPv4 host and step to the
next address.  (The C increment wraps modulo 2^32, so with `last =
0xffffffff` the C loop never terminates; the model stops after `last`.) -/
def addRangeGo : Nat → Nat → Nat → List OHost → List OHost
  | 0, _, _, acc => acc
  | fuel + 1, current, last, acc =>
    if current ≤ last then
      addRangeGo fuel (current + 1) last ({ type_ := HOST_TYPE_IPV4, addr := current } :: acc)
    else acc

/-- The expansion loop started with the number of iterations it performs. -/
def addRange (current last : Nat) (acc : List OHost) : List OHost :=
  addRangeGo (last + 1 - current) current last acc

/-- The single-host constructor inside `openvas_hosts_new`: a fresh zeroed
host whose active field is filled from the token.  A failing `inet_pton` would
leave the zeroed field untouched, which the `getD` default reproduces. -/
def mkSingleHost (ht : Int) (tok : List Char) : OHost :=
  if ht = HOST_TYPE_NAME then { type_ := HOST_TYPE_NAME, name := tok }
  else if ht = HOST_TYPE_IPV4 then
    { type_ := HOST_TYPE_IPV4, addr := addrOfBytes ((inet_pton4 tok).getD [0, 0, 0, 0]) }
  else { type_ := HOST_TYPE_IPV6, addr6 := (inet_pton6 tok).getD (List.replicate 16 0) }

/-- The `ips_func` selection inside `openvas_hosts_new`. -/
def ipsFunc (ht : Int) (tok : List Char) : Option (Nat × Nat) :=
  if ht = HOST_TYPE_CIDR_BLOCK then cidr_block_ips tok
  else if ht = HOST_TYPE_RANGE_SHORT then short_range_network_ips tok
  else long_range_network_ips tok

/-- Accumulator of the token scan: the prepend-order host list, the rejected
counter and the diagnostics (most recent first, mirroring prepend order). -/
structure BuildState where
  hosts : List OHost := []
  removed : Nat := 0
  logs : List LogMsg := []
deriving DecidableEq

/-- The body of the token loop in `openvas_hosts_new`, for one stripped,
nonempty token. -/
def processToken (st : BuildState) (tok : List Char) : BuildState :=
  if determine_host_type tok = HOST_TYPE_NAME ∨ determine_host_type tok = HOST_TYPE_IPV4
     ∨ determine_host_type tok = HOST_TYPE_IPV6 then
    { st with hosts := mkSingleHost (determine_host_type tok) tok :: st.hosts }
  else if determine_host_type tok = HOST_TYPE_CIDR_BLOCK
       ∨ determine_host_type tok = HOST_TYPE_RANGE_SHORT
       ∨ determine_host_type tok = HOST_TYPE_RANGE_LONG then
    match ipsFunc (determine_host_type tok) tok with
    | none => st
    | some (first, last) =>
      if last < first then { st with logs := LogMsg.invLimits tok :: st.logs }
      else { st with hosts := addRange first last st.hosts }
  else
    { st with removed := st.removed + 1, logs := LogMsg.invalidHost tok :: st.logs }

/-- Newline normalization at the start of `openvas_hosts_new`. -/
def normalizeSep (l : List Char) : List Char :=
  l.map (fun c => if c = '\n' then ',' else c)

/-- `g_strsplit(str, ",", 0)`: the comma-separated pieces, empty pieces
included.  (`g_strsplit` of the empty string returns no pieces where this
returns one empty piece; the construction skips empty pieces either way.) -/
def splitCommas : List Char → List (List Char)
  | [] => [[]]
  | c :: r =>
    if c = ',' then [] :: splitCommas r
    else
      match splitCommas r with
      | [] => [[c]]
      | t :: ts => (c :: t) :: ts

/-- `g_strstrip`: remove leading and trailing whitespace. -/
def g_strstrip (l : List Char) : List Char :=
  ((l.dropWhile cIsSpace).reverse.dropWhile cIsSpace).reverse

/-- The token scan of `openvas_hosts_new`: strip each piece, skip empty ones,
process the rest. -/
def buildHosts (l : List Char) : BuildState :=
  (splitCommas l).foldl
    (fun st piece =>
      let stripped := g_strstrip piece
      if stripped = [] then st else processToken st stripped)
    {}

/-- Source `openvas_hosts_new` (on a non-null string): normalize separators,
split, scan the tokens prepending, reverse the list, remove duplicates and
reset the cursor. -/
def openvas_hosts_new (l : List Char) : OHosts :=
  let norm := normalizeSep l
  let st := buildHosts norm
  let beforeDedup : OHosts :=
    { orig_str := norm, hosts := st.hosts.reverse, removed := st.removed,
      current := 0, logs := st.logs }
  let deduped := openvas_hosts_remove_duplicates beforeDedup
  { deduped with current := 0 }

/-! ### Accessors and iteration -/

/-- Source `openvas_hosts_next`: `none` for a null collection or an exhausted
cursor, otherwise the cursor element, advancing the cursor. -/
def openvas_hosts_next : Option OHosts → Option OHost × Option OHosts
  | none => (none, none)
  | some c =>
    match c.hosts[c.current]? with
    | none => (none, some c)
    | some h => (some h, some { c with current := c.current + 1 })

/-- The value returned by the (n+1)-st call of `openvas_hosts_next`, threading
the mutated collection through the preceding n calls. -/
def nextCalls : Option OHosts → Nat → Option OHost
  | st, 0 => (openvas_hosts_next st).1
  | st, n + 1 => nextCalls (openvas_hosts_next st).2 n

/-- Source `openvas_hosts_count`: 0 for a null collection. -/
def openvas_hosts_count : Option OHosts → Nat
  | none => 0
  | some c => c.hosts.length

/-- Source `openvas_hosts_removed`: 0 for a null collection. -/
def openvas_hosts_removed : Option OHosts → Nat
  | none => 0
  | some c => c.removed

/-- Source `openvas_host_type`: -1 for a null host. -/
def openvas_host_type : Option OHost → Int
  | none => -1
  | some h => h.type_

/-! ### Shuffle -/

/-- The loop of `openvas_hosts_shuffle`: `count` iterations; at each, an
element at a random position in [0, count) is unlinked and pushed onto the
front of the new list.  `picks` is the stream of values drawn from the random
source (taken modulo the current count, which is exactly the range
`g_rand_int_range` draws from). -/
def shuffleGo (picks : Nat → Nat) : Nat → Nat → List OHost → List OHost → List OHost
  | _, 0, _, newList => newList
  | k, count + 1, l, newList =>
    let i := picks k % (count + 1)
    match l[i]? with
    | none => newList
    | some x => shuffleGo picks (k + 1) count (l.eraseIdx i) (x :: newList)

/-- Source `openvas_hosts_shuffle`: rebuild the list in random order and reset
the cursor. -/
def openvas_hosts_shuffle (c : OHosts) (picks : Nat → Nat) : OHosts :=
  { c with hosts := shuffleGo picks 0 c.hosts.length c.hosts [], current := 0 }

/-! ### Resolution (external getaddrinfo oracle) -/

def AF_INET : Int := 2
def AF_INET6 : Int := 10

/-- One `struct addrinfo` result of the external resolver: the address family
and the address bytes. -/
structure AddrInfo where
  family : Int
  addrBytes : List Nat
deriving DecidableEq

/-- Source `openvas_host_resolve`.  `gai` is the external resolver's response
(`none` models a nonzero `getaddrinfo` return).  The result is the C return
value paired with the bytes written into `dst` (`none` when the function
returns without writing `dst`). -/
def openvas_host_resolve (host : Option OHost) (dstNull : Bool) (family : Int)
    (gai : Option (List AddrInfo)) : Int × Option (List Nat) :=
  match host with
  | none => (0, none)
  | some h =>
    if dstNull then (0, none)
    else if h.type_ ≠ HOST_TYPE_NAME then (0, none)
    else if family ≠ AF_INET ∧ family ≠ AF_INET6 then (0, none)
    else
      match gai with
      | none => (-1, none)
      | some infos =>
        match infos.find? (fun ai => ai.family = family) with
        | some ai => (0, some (ai.addrBytes.take (if family = AF_INET then 4 else 16)))
        | none => (0, none)

/-- Source `ipv4_mapped_ipv6`: two zero words, a `0xffff` word, then the IPv4
bytes. -/
def ipv4_mapped_ipv6 (b4 : List Nat) : List Nat :=
  List.replicate 8 0 ++ [0, 0, 255, 255] ++ b4.take 4

/-- Source `openvas_host_addr6`.  The result is the C return value paired with
the bytes stored into `ip6`; in the hostname case where `openvas_host_resolve`
returns 0 without writing its output, the local `ip4` variable is never
initialized, so no defined value is produced (`none`). -/
def openvas_host_addr6 (host : Option OHost) (ip6Null : Bool)
    (gai : Option (List AddrInfo)) : Int × Option (List Nat) :=
  match host with
  | none => (-1, none)
  | some h =>
    if ip6Null then (-1, none)
    else if openvas_host_type (some h) = HOST_TYPE_IPV6 then (0, some h.addr6)
    else if openvas_host_type (some h) = HOST_TYPE_IPV4 then
      (0, some (ipv4_mapped_ipv6 (natToBytes4 h.addr)))
    else if openvas_host_type (some h) = HOST_TYPE_NAME then
      let r := openvas_host_resolve (some h) false AF_INET gai
      if r.1 = -1 then (-1, none)
      else
        match r.2 with
        | some b4 => (0, some (ipv4_mapped_ipv6 b4))
        | none => (0, none)
    else (-1, none)

/-! ### Specification-side definitions (restatements of spec.md, used only to
compare against the source translation above) -/

/-- IPv4 host entry with a given host-order address value. -/
def mkIPv4 (n : Nat) : OHost := { type_ := HOST_TYPE_IPV4, addr := n }

/-- Ascending list of addresses from `first` to `last` inclusive, as the spec
describes an expansion ("every address from first to last inclusive, in
ascending numeric order"). -/
def ascRange (first last : Nat) : List OHost :=
  if first ≤ last then mkIPv4 first :: ascRange (first + 1) last else []
termination_by last + 1 - first

/-- Spec 4.2 (amended by the counterexample below): a token has CIDR-block
form when it is an IPv4 literal, a `'/'`, and a nonempty all-digit suffix
whose decimal value lies in [1,30]. -/
def specCidrForm (l : List Char) : Prop :=
  ∃ a ds, l = a ++ '/' :: ds ∧ is_ipv4_address a = true ∧ ds ≠ [] ∧
    ds.all isDigitC = true ∧ 1 ≤ digitsVal ds ∧ digitsVal ds ≤ 30

/-- Spec 4.5: "for every entry, compare against every later entry; when equal,
remove the later duplicate", keeping the earliest copy of each. -/
def specStableDedup : List OHost → List OHost
  | [] => []
  | h :: t => h :: specStableDedup (t.filter (fun x => !openvas_host_equal h x))
termination_by l => l.length
decreasing_by
  simpa using Nat.lt_succ_of_le (List.length_filter_le _ t)

/-- Spec 4.4: the entries one stripped token contributes, in order: one entry
for a single-host kind, the ascending expansion for a range/block kind with
ordered limits, nothing otherwise. -/
def specTokenEntries (tok : List Char) : List OHost :=
  if determine_host_type tok = HOST_TYPE_NAME ∨ determine_host_type tok = HOST_TYPE_IPV4
     ∨ determine_host_type tok = HOST_TYPE_IPV6 then
    [mkSingleHost (determine_host_type tok) tok]
  else if determine_host_type tok = HOST_TYPE_CIDR_BLOCK
       ∨ determine_host_type tok = HOST_TYPE_RANGE_SHORT
       ∨ determine_host_type tok = HOST_TYPE_RANGE_LONG then
    match ipsFunc (determine_host_type tok) tok with
    | none => []
    | some (first, last) => if last < first then [] else ascRange first last
  else []

/-- The stripped, nonempty tokens of an input, in scan order. -/
def strippedTokens (l : List Char) : List (List Char) :=
  ((splitCommas (normalizeSep l)).map g_strstrip).filter (fun t => t ≠ [])

/-- Spec 4.4/8: the externally observable entry order — first-occurrence order
of the token scan, ascending within each expansion. -/
def specOrder (l : List Char) : List OHost :=
  (strippedTokens l).flatMap specTokenEntries

/-! ## Helper lemmas -/

theorem not_space_of_digit {c : Char} (h : isDigitC c = true) : cIsSpace c = false := by
  have hc : '0' ≤ c ∧ c ≤ '9' := by simpa [isDigitC] using h
  simp only [cIsSpace, Bool.or_eq_false_iff, decide_eq_false_iff_not]
  refine ⟨⟨⟨⟨⟨?_, ?_⟩, ?_⟩, ?_⟩, ?_⟩, ?_⟩ <;> rintro rfl <;> revert hc <;> decide

theorem digit_ne_minus {c : Char} (h : isDigitC c = true) : c ≠ '-' :=
  fun he => absurd (he ▸ h) (by decide)

theorem digit_ne_plus {c : Char} (h : isDigitC c = true) : c ≠ '+' :=
  fun he => absurd (he ▸ h) (by decide)

theorem dropWhile_eq_self_of_all_neg {p : Char → Bool} {l : List Char}
    (h : ∀ c ∈ l, p c = false) : l.dropWhile p = l := by
  cases l with
  | nil => rfl
  | cons x xs => simp [List.dropWhile_cons, h x (List.mem_cons_self x xs)]

theorem g_strstrip_eq_self {l : List Char} (h : ∀ c ∈ l, cIsSpace c = false) :
    g_strstrip l = l := by
  unfold g_strstrip
  rw [dropWhile_eq_self_of_all_neg h,
      dropWhile_eq_self_of_all_neg (fun c hc => h c (List.mem_reverse.mp hc)),
      List.reverse_reverse]

theorem normalizeSep_eq_self {l : List Char} (h : ∀ c ∈ l, c ≠ '\n') :
    normalizeSep l = l := by
  unfold normalizeSep
  exact (List.map_congr_left (fun c hc => by simp [h c hc])).trans (List.map_id l)

theorem splitCommas_ne_nil (l : List Char) : splitCommas l ≠ [] := by
  cases l with
  | nil => simp [splitCommas]
  | cons c r =>
    rw [splitCommas]
    split
    · simp
    · rcases h : splitCommas r with _ | ⟨t, ts⟩ <;> simp

theorem splitCommas_no_comma {l : List Char} (h : ∀ c ∈ l, c ≠ ',') :
    splitCommas l = [l] := by
  induction l with
  | nil => rfl
  | cons x xs ih =>
    rw [splitCommas]
    rw [if_neg (h x (List.mem_cons_self x xs))]
    rw [ih (fun c hc => h c (List.mem_cons_of_mem x hc))]

theorem splitFirst_eq_some {c : Char} {l a b : List Char}
    (h : splitFirst c l = some (a, b)) : l = a ++ c :: b ∧ c ∉ a := by
  induction l generalizing a with
  | nil => simp [splitFirst] at h
  | cons x xs ih =>
    rw [splitFirst] at h
    by_cases hx : x = c
    · rw [if_pos hx] at h
      obtain ⟨rfl, rfl⟩ : [] = a ∧ xs = b := by simpa using h
      simp [hx]
    · rw [if_neg hx] at h
      rcases hs : splitFirst c xs with _ | ⟨a', b'⟩ <;> rw [hs] at h
      · simp at h
      · obtain ⟨rfl, rfl⟩ : x :: a' = a ∧ b' = b := by simpa using h
        obtain ⟨hd, hm⟩ := ih hs
        refine ⟨by simp [hd], ?_⟩
        intro hmem
        rcases List.mem_cons.mp hmem with hce | hmm
        · exact hx hce.symm
        · exact hm hmm

theorem splitFirst_append {c : Char} {a : List Char} (b : List Char) (h : c ∉ a) :
    splitFirst c (a ++ c :: b) = some (a, b) := by
  induction a with
  | nil => simp [splitFirst]
  | cons x xs ih =>
    have hx : x ≠ c := fun he => h (he ▸ List.mem_cons_self x xs)
    rw [List.cons_append, splitFirst, if_neg hx, ih (fun hm => h (List.mem_cons_of_mem x hm))]

theorem takeWhile_eq_self_of_all {p : Char → Bool} {l : List Char}
    (h : ∀ c ∈ l, p c = true) : l.takeWhile p = l := by
  induction l with
  | nil => rfl
  | cons x xs ih =>
    rw [List.takeWhile_cons, if_pos (h x (List.mem_cons_self x xs))]
    rw [ih (fun c hc => h c (List.mem_cons_of_mem x hc))]

theorem dropWhile_eq_nil_of_all {p : Char → Bool} {l : List Char}
    (h : ∀ c ∈ l, p c = true) : l.dropWhile p = [] := by
  induction l with
  | nil => rfl
  | cons x xs ih =>
    rw [List.dropWhile_cons, if_pos (h x (List.mem_cons_self x xs))]
    exact ih (fun c hc => h c (List.mem_cons_of_mem x hc))

theorem strtol10_digit_head {c : Char} {r : List Char} (h : isDigitC c = true) :
    strtol10 (c :: r) =
      ((digitsVal ((c :: r).takeWhile isDigitC) : Int), (c :: r).dropWhile isDigitC) := by
  have h1 : (c :: r).dropWhile cIsSpace = c :: r := by
    rw [List.dropWhile_cons, not_space_of_digit h]; simp
  have h4 : (c :: r).takeWhile isDigitC ≠ [] := by
    rw [List.takeWhile_cons, if_pos h]; simp
  have h6 : (some c == some '-') = false := by simp [digit_ne_minus h]
  have h7 : (some c == some '+') = false := by simp [digit_ne_plus h]
  unfold strtol10
  simp only [h1, List.head?_cons, h6, h7, Bool.or_self, Bool.or_false, Bool.false_or,
    Bool.false_eq_true, if_false]
  rw [if_neg h4]

theorem strtol10_all_digits {l : List Char} (hne : l ≠ []) (h : ∀ c ∈ l, isDigitC c = true) :
    strtol10 l = ((digitsVal l : Int), []) := by
  cases l with
  | nil => exact absurd rfl hne
  | cons c r =>
    rw [strtol10_digit_head (h c (List.mem_cons_self c r))]
    rw [takeWhile_eq_self_of_all h, dropWhile_eq_nil_of_all h]

theorem pton4Go_chars {l : List Char} :
    ∀ {cur : Nat} {saw : Bool} {octets : Nat} {acc r : List Nat},
      pton4Go l cur saw octets acc = some r →
      ∀ ch ∈ l, isDigitC ch = true ∨ ch = '.' := by
  induction l with
  | nil => intro _ _ _ _ _ _ ch hch; cases hch
  | cons x xs ih =>
    intro cur saw octets acc r hp ch hch
    rw [pton4Go] at hp
    rcases List.mem_cons.mp hch with rfl | hm
    · by_cases hd : isDigitC ch
      · exact Or.inl hd
      · rw [if_neg hd] at hp
        by_cases hdot : (ch = '.' && saw) = true
        · exact Or.inr (by simpa using ((Bool.and_eq_true _ _).mp hdot).1)
        · rw [if_neg hdot] at hp; cases hp
    · by_cases hd : isDigitC x
      · rw [if_pos hd] at hp
        split at hp
        · cases hp
        · split at hp
          · cases hp
          · split at hp
            · split at hp
              · cases hp
              · exact ih hp ch hm
            · exact ih hp ch hm
      · rw [if_neg hd] at hp
        split at hp
        · split at hp
          · cases hp
          · exact ih hp ch hm
        · cases hp

theorem inet_pton4_chars {l : List Char} {r : List Nat} (h : inet_pton4 l = some r) :
    ∀ ch ∈ l, isDigitC ch = true ∨ ch = '.' :=
  pton4Go_chars h

theorem inet_pton4_none_of_bad {l : List Char} {ch : Char} (hm : ch ∈ l)
    (hd : isDigitC ch = false) (hdot : ch ≠ '.') : inet_pton4 l = none := by
  rcases hp : inet_pton4 l with _ | r
  · rfl
  · rcases inet_pton4_chars hp ch hm with h | h
    · rw [hd] at h; cases h
    · exact absurd h hdot

theorem inet_pton4_nil : inet_pton4 [] = none := rfl

theorem inet_pton4_ne_nil {l : List Char} {r : List Nat} (h : inet_pton4 l = some r) :
    l ≠ [] := by
  intro he; rw [he, inet_pton4_nil] at h; cases h

theorem pton6Go_none_of_bad {c : Char} (hx : isXdigitC c = false) (hc : c ≠ ':')
    (hdot : c ≠ '.') (hd : isDigitC c = false) :
    ∀ (l : List Char) (st : Pton6State), l <:+ st.curtok → c ∈ l → pton6Go l st = none := by
  intro l
  induction l with
  | nil => intro st _ hm; cases hm
  | cons x xs ih =>
    intro st hsuf hm
    have hsx : xs <:+ st.curtok := (List.suffix_cons x xs).trans hsuf
    rw [pton6Go]
    rcases List.mem_cons.mp hm with rfl | hmx
    · rw [if_neg (by simp [hx]), if_neg (by simp [hc]), if_neg (by simp [hdot])]
    · by_cases h1 : isXdigitC x
      · rw [if_pos h1]
        split
        · rfl
        · exact ih _ hsx hmx
      · rw [if_neg h1]
        by_cases h2 : x = ':'
        · rw [if_pos h2]
          split
          · split
            · rfl
            · exact ih _ (by simp) hmx
          · split
            · rfl
            · split
              · rfl
              · exact ih _ (by simp) hmx
        · rw [if_neg h2]
          by_cases h3 : x = '.'
          · rw [if_pos h3]
            split
            · have h4 : inet_pton4 st.curtok = none :=
                inet_pton4_none_of_bad (hsuf.subset hm) hd hdot
              rw [h4]
            · rfl
          · rw [if_neg h3]

theorem inet_pton6_none_of_bad {l : List Char} {c : Char} (hm : c ∈ l)
    (hx : isXdigitC c = false) (hc : c ≠ ':') (hdot : c ≠ '.') (hd : isDigitC c = false) :
    inet_pton6 l = none := by
  unfold inet_pton6
  by_cases h1 : l.head? = some ':'
  · rw [if_pos h1]
    by_cases h2 : l.tail.head? = some ':'
    · rw [if_pos h2]
      refine pton6Go_none_of_bad hx hc hdot hd _ _ (List.suffix_refl _) ?_
      rcases l with _ | ⟨y, ys⟩
      · cases hm
      · have hy : y = ':' := by simpa using h1
        rcases List.mem_cons.mp hm with rfl | hmx
        · exact absurd hy hc
        · simpa using hmx
    · rw [if_neg h2]
  · rw [if_neg h1]
    exact pton6Go_none_of_bad hx hc hdot hd _ _ (List.suffix_refl _) hm

theorem takeWhile_append_sep {p : Char → Bool} {a : List Char} (x : Char) (b : List Char)
    (ha : ∀ c ∈ a, p c = true) (hx : p x = false) :
    (a ++ x :: b).takeWhile p = a ∧ (a ++ x :: b).dropWhile p = x :: b := by
  induction a with
  | nil => simp [List.takeWhile_cons, List.dropWhile_cons, hx]
  | cons y ys ih =>
    have hy : p y = true := ha y (List.mem_cons_self y ys)
    obtain ⟨h1, h2⟩ := ih (fun c hc => ha c (List.mem_cons_of_mem y hc))
    constructor
    · rw [List.cons_append, List.takeWhile_cons, if_pos hy, h1]
    · rw [List.cons_append, List.dropWhile_cons, if_pos hy, h2]

theorem slash_not_in_ipv4 {a : List Char} {bytes : List Nat}
    (hpa : inet_pton4 a = some bytes) : '/' ∉ a := by
  intro hmem
  rcases inet_pton4_chars hpa '/' hmem with h | h
  · exact absurd h (by decide)
  · exact absurd h (by decide)

theorem ipv4_chars_digit_or_dot {a : List Char} {bytes : List Nat}
    (hpa : inet_pton4 a = some bytes) :
    ∀ c ∈ a, (isDigitC c || c = '.') = true := by
  intro c hc
  rcases inet_pton4_chars hpa c hc with h | h <;> simp [h]

theorem cidr_get_block_form {a ds : List Char} {bytes : List Nat}
    (hpa : inet_pton4 a = some bytes) (hne : ds ≠ []) (hds : ∀ c ∈ ds, isDigitC c = true) :
    cidr_get_block (a ++ '/' :: ds) = some (digitsVal (ds.take 2)) := by
  obtain ⟨h1, h2⟩ := takeWhile_append_sep (p := fun c => isDigitC c || c = '.') '/' ds
    (ipv4_chars_digit_or_dot hpa) (by decide)
  have hne2 : (ds.take 2) ≠ [] := by
    rcases ds with _ | ⟨c, r⟩
    · exact absurd rfl hne
    · simp
  unfold cidr_get_block
  rw [h1, h2, if_neg (inet_pton4_ne_nil hpa)]
  simp only [List.head?_cons, List.tail_cons, if_pos rfl]
  rw [takeWhile_eq_self_of_all hds, if_neg hne2]
  simp

theorem cidr_get_ip_form {a ds : List Char} {bytes : List Nat}
    (hpa : inet_pton4 a = some bytes) :
    cidr_get_ip (a ++ '/' :: ds) = some (addrOfBytes bytes) := by
  unfold cidr_get_ip
  simp only [splitFirst_append ds (slash_not_in_ipv4 hpa), hpa]

theorem is_cidr_block_iff {l : List Char} : is_cidr_block l = true ↔ specCidrForm l := by
  constructor
  · intro h
    unfold is_cidr_block at h
    rcases hsp : splitFirst '/' l with _ | ⟨a, b⟩ <;> simp only [hsp] at h
    · cases h
    · obtain ⟨hdec, -⟩ := splitFirst_eq_some hsp
      by_cases h4 : is_ipv4_address a
      · rw [if_neg (by simp [h4])] at h
        rcases b with _ | ⟨c, r⟩
        · simp at h
        · by_cases hd : isDigitC c
          · rw [if_neg (by simp [hd])] at h
            rw [strtol10_digit_head hd] at h
            simp only [Bool.and_eq_true, decide_eq_true_eq] at h
            obtain ⟨⟨hrest, hpos⟩, hle⟩ := h
            have hall : ∀ x ∈ c :: r, isDigitC x = true := by
              simpa using List.dropWhile_eq_nil_iff.mp hrest
            rw [takeWhile_eq_self_of_all hall] at hpos hle
            refine ⟨a, c :: r, hdec, h4, by simp, by simpa using hall, ?_, ?_⟩
            · exact_mod_cast hpos
            · exact_mod_cast hle
          · rw [if_pos (by simp [hd])] at h; cases h
      · rw [if_pos (by simp [h4])] at h; cases h
  · rintro ⟨a, ds, rfl, h4, hne, hall, h1, h30⟩
    have hall' : ∀ c ∈ ds, isDigitC c = true := by simpa using hall
    obtain ⟨bytes, hpa⟩ : ∃ bytes, inet_pton4 a = some bytes := by
      rcases hb : inet_pton4 a with _ | bytes
      · rw [is_ipv4_address, hb] at h4; cases h4
      · exact ⟨bytes, rfl⟩
    unfold is_cidr_block
    simp only [splitFirst_append ds (slash_not_in_ipv4 hpa)]
    rw [if_neg (by simp [h4])]
    rcases ds with _ | ⟨c, r⟩
    · exact absurd rfl hne
    · have hd : isDigitC c = true := hall' c (List.mem_cons_self c r)
      rw [if_neg (by simp [hd])]
      rw [strtol10_digit_head hd, takeWhile_eq_self_of_all hall']
      simp only [Bool.and_eq_true, decide_eq_true_eq]
      refine ⟨⟨dropWhile_eq_nil_of_all hall', ?_⟩, ?_⟩
      · exact_mod_cast h1
      · exact_mod_cast h30

theorem specStableDedup_length_le (l : List OHost) :
    (specStableDedup l).length ≤ l.length := by
  induction l using specStableDedup.induct with
  | case1 => simp [specStableDedup]
  | case2 h t ih =>
    rw [specStableDedup]
    simp only [List.length_cons]
    exact Nat.succ_le_succ (ih.trans (List.length_filter_le _ t))

theorem removeDupsGoF_eq : ∀ (fuel : Nat) (l : List OHost) (r : Nat), l.length ≤ fuel →
    removeDupsGoF fuel l r =
      (specStableDedup l, r + (l.length - (specStableDedup l).length)) := by
  intro fuel
  induction fuel with
  | zero =>
    intro l r hle
    rw [List.length_eq_zero.mp (Nat.le_zero.mp hle)]
    simp [removeDupsGoF, specStableDedup]
  | succ fuel ih =>
    intro l r hle
    rcases l with _ | ⟨h, t⟩
    · simp [removeDupsGoF, specStableDedup]
    · rw [removeDupsGoF, specStableDedup]
      have hkept : (t.filter (fun x => !openvas_host_equal h x)).length ≤ fuel :=
        (List.length_filter_le _ t).trans (by simpa using hle)
      simp only [ih _ _ hkept]
      have h1 := List.length_filter_le (fun x => !openvas_host_equal h x) t
      have h2 := specStableDedup_length_le (t.filter (fun x => !openvas_host_equal h x))
      simp only [Prod.mk.injEq, List.length_cons]
      refine ⟨by simp, by omega⟩

theorem removeDupsGo_eq (l : List OHost) :
    ∀ r : Nat, removeDupsGo l r =
      (specStableDedup l, r + (l.length - (specStableDedup l).length)) :=
  fun r => removeDupsGoF_eq l.length l r (Nat.le_refl _)

theorem specStableDedup_sublist (l : List OHost) : (specStableDedup l).Sublist l := by
  induction l using specStableDedup.induct with
  | case1 => simp [specStableDedup]
  | case2 h t ih =>
    rw [specStableDedup]
    exact List.Sublist.cons₂ h (ih.trans (List.filter_sublist t))

theorem specStableDedup_pairwise (l : List OHost) :
    List.Pairwise (fun a b => openvas_host_equal a b = false) (specStableDedup l) := by
  induction l using specStableDedup.induct with
  | case1 => simp [specStableDedup]
  | case2 h t ih =>
    rw [specStableDedup, List.pairwise_cons]
    refine ⟨fun b hb => ?_, ih⟩
    have hbf := (specStableDedup_sublist _).subset hb
    have := (List.mem_filter.mp hbf).2
    simpa using this

theorem specStableDedup_mem (l : List OHost) :
    ∀ x ∈ l, ∃ y ∈ specStableDedup l, openvas_host_equal y x = true ∨ y = x := by
  induction l using specStableDedup.induct with
  | case1 => intro x hx; cases hx
  | case2 h t ih =>
    intro x hx
    rw [specStableDedup]
    rcases List.mem_cons.mp hx with hxh | hxt
    · exact ⟨h, List.mem_cons_self _ _, Or.inr hxh.symm⟩
    · by_cases he : openvas_host_equal h x = true
      · exact ⟨h, List.mem_cons_self _ _, Or.inl he⟩
      · have hxf : x ∈ t.filter (fun x => !openvas_host_equal h x) :=
          List.mem_filter.mpr ⟨hxt, by simp [he]⟩
        obtain ⟨y, hy, hyx⟩ := ih x hxf
        exact ⟨y, List.mem_cons_of_mem h hy, hyx⟩

theorem specStableDedup_eq_self {l : List OHost}
    (h : List.Pairwise (fun a b => openvas_host_equal a b = false) l) :
    specStableDedup l = l := by
  induction l with
  | nil => simp [specStableDedup]
  | cons x t ih =>
    obtain ⟨hall, hpair⟩ := List.pairwise_cons.mp h
    have hf : t.filter (fun y => !openvas_host_equal x y) = t :=
      List.filter_eq_self.mpr (fun a ha => by simp [hall a ha])
    rw [specStableDedup, hf, ih hpair]

theorem ascRange_eq_map (first last : Nat) :
    ascRange first last = (List.range (last + 1 - first)).map (fun i => mkIPv4 (first + i)) := by
  induction first, last using ascRange.induct with
  | case1 f l hle ih =>
    rw [ascRange, if_pos hle]
    have hn : l + 1 - f = (l + 1 - (f + 1)) + 1 := by omega
    rw [ih, hn, List.range_succ_eq_map, List.map_cons, List.map_map]
    refine congrArg₂ _ (by simp [mkIPv4]) ?_
    refine List.map_congr_left (fun i _ => ?_)
    simp [Function.comp, Nat.succ_eq_add_one]
    refine congrArg mkIPv4 (by omega)
  | case2 f l hle =>
    rw [ascRange, if_neg hle]
    have hn : l + 1 - f = 0 := by omega
    rw [hn]
    rfl

theorem ascRange_length (first last : Nat) :
    (ascRange first last).length = last + 1 - first := by
  rw [ascRange_eq_map]; simp

theorem addRangeGo_eq : ∀ (fuel current last : Nat) (acc : List OHost),
    last + 1 - current ≤ fuel →
    addRangeGo fuel current last acc = (ascRange current last).reverse ++ acc := by
  intro fuel
  induction fuel with
  | zero =>
    intro current last acc hle
    have hnle : ¬current ≤ last := by omega
    rw [addRangeGo]
    conv_rhs => rw [ascRange, if_neg hnle]
    rfl
  | succ fuel ih =>
    intro current last acc hle
    by_cases hc : current ≤ last
    · rw [addRangeGo, if_pos hc, ih (current + 1) last _ (by omega)]
      conv_rhs => rw [ascRange, if_pos hc]
      rw [List.reverse_cons, List.append_assoc]
      rfl
    · rw [addRangeGo, if_neg hc]
      conv_rhs => rw [ascRange, if_neg hc]
      rfl

theorem addRange_eq (current last : Nat) (acc : List OHost) :
    addRange current last acc = (ascRange current last).reverse ++ acc :=
  addRangeGo_eq _ current last acc (Nat.le_refl _)

theorem processToken_hosts (st : BuildState) (tok : List Char) :
    (processToken st tok).hosts = (specTokenEntries tok).reverse ++ st.hosts := by
  unfold processToken specTokenEntries
  split
  · rfl
  · split
    · rcases h : ipsFunc (determine_host_type tok) tok with _ | ⟨first, last⟩ <;>
        simp only [h]
      · simp
      · split
        · simp
        · exact addRange_eq first last st.hosts
    · rfl

theorem foldl_processToken_hosts (toks : List (List Char)) (st : BuildState) :
    (toks.foldl processToken st).hosts = (toks.flatMap specTokenEntries).reverse ++ st.hosts := by
  induction toks generalizing st with
  | nil => simp
  | cons t ts ih =>
    rw [List.foldl_cons, ih, List.flatMap_cons, List.reverse_append, processToken_hosts]
    rw [List.append_assoc]

theorem buildHosts_fold (pieces : List (List Char)) (st : BuildState) :
    pieces.foldl
      (fun st piece =>
        let stripped := g_strstrip piece
        if stripped = [] then st else processToken st stripped) st
      = ((pieces.map g_strstrip).filter (fun t => t ≠ [])).foldl processToken st := by
  induction pieces generalizing st with
  | nil => rfl
  | cons p ps ih =>
    rw [List.foldl_cons, List.map_cons, List.filter_cons]
    by_cases hp : g_strstrip p = []
    · rw [if_pos hp]
      rw [if_neg (by simp [hp])]
      exact ih st
    · rw [if_neg hp]
      rw [if_pos (by simp [hp])]
      rw [List.foldl_cons]
      exact ih (processToken st (g_strstrip p))

theorem buildHosts_hosts (l : List Char) :
    (buildHosts (normalizeSep l)).hosts = (specOrder l).reverse := by
  unfold buildHosts specOrder strippedTokens
  rw [buildHosts_fold, foldl_processToken_hosts]
  simp

theorem hosts_new_hosts (l : List Char) :
    (openvas_hosts_new l).hosts = specStableDedup (specOrder l) := by
  unfold openvas_hosts_new openvas_hosts_remove_duplicates
  simp only [removeDupsGo_eq, buildHosts_hosts, List.reverse_reverse]

theorem hosts_new_current (l : List Char) : (openvas_hosts_new l).current = 0 := rfl

theorem nextCalls_get (n : Nat) : ∀ c : OHosts,
    nextCalls (some c) n = c.hosts[c.current + n]? := by
  induction n with
  | zero =>
    intro c
    rw [nextCalls, openvas_hosts_next]
    rcases hg : c.hosts[c.current]? with _ | h <;> simp [hg]
  | succ n ih =>
    intro c
    rw [nextCalls, openvas_hosts_next]
    rcases hg : c.hosts[c.current]? with _ | h
    · simp only []
      rw [ih c]
      have hlen : c.hosts.length ≤ c.current := by
        by_contra hlt
        rw [List.getElem?_eq_getElem (by omega)] at hg
        cases hg
      rw [List.getElem?_eq_none (by omega), List.getElem?_eq_none (by omega)]
    · simp only []
      rw [ih]
      simp only []
      refine congrArg _ (by omega)

theorem cons_get_eraseIdx_perm :
    ∀ (l : List OHost) (i : Nat) (x : OHost), l[i]? = some x → (x :: l.eraseIdx i).Perm l := by
  intro l
  induction l with
  | nil => intro i x h; simp at h
  | cons y ys ih =>
    intro i x h
    cases i with
    | zero =>
      obtain rfl : y = x := by simpa using h
      exact List.Perm.refl _
    | succ i =>
      have hys : ys[i]? = some x := by simpa using h
      have hperm := ih i x hys
      have h1 : (x :: y :: ys.eraseIdx i).Perm (y :: x :: ys.eraseIdx i) :=
        List.Perm.swap y x _
      exact h1.trans (hperm.cons y)

theorem shuffleGo_perm (picks : Nat → Nat) :
    ∀ (count k : Nat) (l acc : List OHost), l.length = count →
      (shuffleGo picks k count l acc).Perm (l ++ acc) := by
  intro count
  induction count with
  | zero =>
    intro k l acc hlen
    rw [List.length_eq_zero.mp hlen, shuffleGo]
    exact List.Perm.refl _
  | succ c ih =>
    intro k l acc hlen
    rw [shuffleGo]
    have hi : picks k % (c + 1) < l.length := by
      rw [hlen]; exact Nat.mod_lt _ (Nat.succ_pos c)
    rw [List.getElem?_eq_getElem hi]
    simp only []
    have hlen' : (l.eraseIdx (picks k % (c + 1))).length = c := by
      rw [List.length_eraseIdx, if_pos hi, hlen]
      omega
    refine (ih (k + 1) _ _ hlen').trans ?_
    refine List.Perm.trans List.perm_middle ?_
    have h1 : (l[picks k % (c + 1)] :: l.eraseIdx (picks k % (c + 1))).Perm l :=
      cons_get_eraseIdx_perm l _ _ (List.getElem?_eq_getElem hi)
    exact h1.append_right acc

theorem hosts_shuffle_perm (c : OHosts) (picks : Nat → Nat) :
    (openvas_hosts_shuffle c picks).hosts.Perm c.hosts := by
  unfold openvas_hosts_shuffle
  simpa using shuffleGo_perm picks c.hosts.length 0 c.hosts [] rfl

theorem cidrMask_val {p : Nat} (h1 : 1 ≤ p) (h30 : p ≤ 30) :
    cidrMask p = 2 ^ 32 - 2 ^ (32 - p) := by
  interval_cases p <;> decide

theorem pow_sub_ge {p : Nat} (h30 : p ≤ 30) : 4 ≤ 2 ^ (32 - p) := by
  have : (2 : Nat) ^ 2 ≤ 2 ^ (32 - p) := Nat.pow_le_pow_right (by omega) (by omega)
  simpa using this

theorem cidr_block_ips_form {a ds : List Char} {bytes : List Nat}
    (hpa : inet_pton4 a = some bytes) (hne : ds ≠ []) (hds : ∀ c ∈ ds, isDigitC c = true)
    (hlen2 : ds.length ≤ 2) (h1 : 1 ≤ digitsVal ds) (h30 : digitsVal ds ≤ 30) :
    cidr_block_ips (a ++ '/' :: ds) =
      some ((addrOfBytes bytes &&& cidrMask (digitsVal ds)) + 1,
            (addrOfBytes bytes &&& cidrMask (digitsVal ds)) + (2 ^ (32 - digitsVal ds) - 2)) := by
  have htk : ds.take 2 = ds := List.take_of_length_le hlen2
  have hblk := cidr_get_block_form hpa hne hds
  rw [htk] at hblk
  have hN : addrOfBytes bytes &&& cidrMask (digitsVal ds) ≤ 2 ^ 32 - 2 ^ (32 - digitsVal ds) := by
    rw [cidrMask_val h1 h30] at *
    exact Nat.and_le_right
  have h4 := pow_sub_ge h30
  unfold cidr_block_ips
  rw [hblk, cidr_get_ip_form hpa]
  have e1 : ((addrOfBytes bytes &&& cidrMask (digitsVal ds)) + 1) % 2 ^ 32 =
      (addrOfBytes bytes &&& cidrMask (digitsVal ds)) + 1 := by
    refine Nat.mod_eq_of_lt ?_
    have hp : (2 : Nat) ^ (32 - digitsVal ds) ≤ 2 ^ 32 := Nat.pow_le_pow_right (by omega) (by omega)
    omega
  simp only [e1]
  have e2 : (addrOfBytes bytes &&& cidrMask (digitsVal ds)) + 1 + 2 ^ (32 - digitsVal ds) - 3 =
      (addrOfBytes bytes &&& cidrMask (digitsVal ds)) + (2 ^ (32 - digitsVal ds) - 2) := by
    omega
  rw [e2]
  have hp : (2 : Nat) ^ (32 - digitsVal ds) ≤ 2 ^ 32 := Nat.pow_le_pow_right (by omega) (by omega)
  rw [Nat.mod_eq_of_lt (by omega)]

theorem cidr_token_chars {a ds : List Char} {bytes : List Nat}
    (hpa : inet_pton4 a = some bytes) (hds : ∀ c ∈ ds, isDigitC c = true) :
    ∀ c ∈ a ++ '/' :: ds, isDigitC c = true ∨ c = '.' ∨ c = '/' := by
  intro c hc
  rcases List.mem_append.mp hc with hca | hcd
  · rcases inet_pton4_chars hpa c hca with h | h
    · exact Or.inl h
    · exact Or.inr (Or.inl h)
  · rcases List.mem_cons.mp hcd with rfl | hm
    · exact Or.inr (Or.inr rfl)
    · exact Or.inl (hds c hm)

theorem cidr_token_sep_free {a ds : List Char} {bytes : List Nat}
    (hpa : inet_pton4 a = some bytes) (hds : ∀ c ∈ ds, isDigitC c = true) :
    ∀ c ∈ a ++ '/' :: ds, c ≠ ',' ∧ c ≠ '\n' ∧ cIsSpace c = false := by
  intro c hc
  rcases cidr_token_chars hpa hds c hc with h | h | h
  · exact ⟨digit_ne_minus h ∘ fun he => absurd (he ▸ h) (by decide),
      fun he => absurd (he ▸ h) (by decide), not_space_of_digit h⟩
  · subst h; refine ⟨by decide, by decide, by decide⟩
  · subst h; refine ⟨by decide, by decide, by decide⟩

theorem specOrder_single {tok : List Char}
    (hnc : ∀ c ∈ tok, c ≠ ',' ∧ c ≠ '\n' ∧ cIsSpace c = false) (hne : tok ≠ []) :
    specOrder tok = specTokenEntries tok := by
  unfold specOrder strippedTokens
  rw [normalizeSep_eq_self (fun c hc => (hnc c hc).2.1),
      splitCommas_no_comma (fun c hc => (hnc c hc).1)]
  rw [List.map_cons, List.map_nil, g_strstrip_eq_self (fun c hc => (hnc c hc).2.2)]
  rw [List.filter_cons, if_pos (by simpa using hne)]
  simp

theorem determine_of_cidr_form {a ds : List Char} {bytes : List Nat}
    (hpa : inet_pton4 a = some bytes) (hne : ds ≠ []) (hds : ∀ c ∈ ds, isDigitC c = true)
    (h1 : 1 ≤ digitsVal ds) (h30 : digitsVal ds ≤ 30) :
    determine_host_type (a ++ '/' :: ds) = HOST_TYPE_CIDR_BLOCK := by
  have hsl : '/' ∈ a ++ '/' :: ds := List.mem_append.mpr (Or.inr (List.mem_cons_self _ _))
  have h4 : is_ipv4_address (a ++ '/' :: ds) = false := by
    rw [is_ipv4_address, inet_pton4_none_of_bad hsl (by decide) (by decide)]
    rfl
  have h6 : is_ipv6_address (a ++ '/' :: ds) = false := by
    rw [is_ipv6_address,
        inet_pton6_none_of_bad hsl (by decide) (by decide) (by decide) (by decide)]
    rfl
  have hc : is_cidr_block (a ++ '/' :: ds) = true :=
    is_cidr_block_iff.mpr ⟨a, ds, rfl, by rw [is_ipv4_address, hpa]; rfl, hne,
      by simpa using hds, h1, h30⟩
  unfold determine_host_type
  rw [if_neg (by simp), h4, h6, hc]
  simp

theorem processToken_range_ok {tok : List Char} {f l : Nat} (st : BuildState)
    (hdet : determine_host_type tok = HOST_TYPE_CIDR_BLOCK
      ∨ determine_host_type tok = HOST_TYPE_RANGE_SHORT
      ∨ determine_host_type tok = HOST_TYPE_RANGE_LONG)
    (hips : ipsFunc (determine_host_type tok) tok = some (f, l)) (hok : ¬l < f) :
    processToken st tok = { st with hosts := addRange f l st.hosts } := by
  have hns : ¬(determine_host_type tok = HOST_TYPE_NAME
      ∨ determine_host_type tok = HOST_TYPE_IPV4
      ∨ determine_host_type tok = HOST_TYPE_IPV6) := by
    rcases hdet with h | h | h <;> rw [h] <;> decide
  unfold processToken
  rw [if_neg hns, if_pos hdet]
  simp only [hips]
  rw [if_neg hok]

theorem processToken_range_inverted {tok : List Char} {f l : Nat} (st : BuildState)
    (hdet : determine_host_type tok = HOST_TYPE_CIDR_BLOCK
      ∨ determine_host_type tok = HOST_TYPE_RANGE_SHORT
      ∨ determine_host_type tok = HOST_TYPE_RANGE_LONG)
    (hips : ipsFunc (determine_host_type tok) tok = some (f, l)) (hinv : l < f) :
    processToken st tok = { st with logs := LogMsg.invLimits tok :: st.logs } := by
  have hns : ¬(determine_host_type tok = HOST_TYPE_NAME
      ∨ determine_host_type tok = HOST_TYPE_IPV4
      ∨ determine_host_type tok = HOST_TYPE_IPV6) := by
    rcases hdet with h | h | h <;> rw [h] <;> decide
  unfold processToken
  rw [if_neg hns, if_pos hdet]
  simp only [hips]
  rw [if_pos hinv]

theorem pairwise_map_range (base n : Nat) :
    List.Pairwise (fun a b => openvas_host_equal a b = false)
      ((List.range n).map (fun i => mkIPv4 (base + i))) := by
  refine List.Pairwise.map _ ?_ (List.pairwise_lt_range n)
  intro i j hij
  unfold openvas_host_equal mkIPv4
  rw [if_neg (by simp)]
  rw [if_pos rfl]
  simp only [decide_eq_false_iff_not]
  omega

theorem mkSingleHost_tag (ht : Int) (tok : List Char) :
    (mkSingleHost ht tok).type_ = HOST_TYPE_NAME ∨ (mkSingleHost ht tok).type_ = HOST_TYPE_IPV4
      ∨ (mkSingleHost ht tok).type_ = HOST_TYPE_IPV6 := by
  unfold mkSingleHost
  split
  · exact Or.inl rfl
  · split
    · exact Or.inr (Or.inl rfl)
    · exact Or.inr (Or.inr rfl)

theorem specTokenEntries_tag (tok : List Char) :
    ∀ h ∈ specTokenEntries tok,
      h.type_ = HOST_TYPE_NAME ∨ h.type_ = HOST_TYPE_IPV4 ∨ h.type_ = HOST_TYPE_IPV6 := by
  intro h hm
  unfold specTokenEntries at hm
  split at hm
  · rw [List.mem_singleton.mp hm]
    exact mkSingleHost_tag _ tok
  · split at hm
    · rcases hips : ipsFunc (determine_host_type tok) tok with _ | ⟨f, l⟩ <;>
        rw [hips] at hm
      · cases hm
      · simp only [] at hm
        split at hm
        · cases hm
        · rw [ascRange_eq_map] at hm
          obtain ⟨i, _, rfl⟩ := List.mem_map.mp hm
          exact Or.inr (Or.inl rfl)
    · cases hm

theorem specTokenEntries_range_ok {tok : List Char} {f l : Nat}
    (hdet : determine_host_type tok = HOST_TYPE_CIDR_BLOCK
      ∨ determine_host_type tok = HOST_TYPE_RANGE_SHORT
      ∨ determine_host_type tok = HOST_TYPE_RANGE_LONG)
    (hips : ipsFunc (determine_host_type tok) tok = some (f, l)) (hok : ¬l < f) :
    specTokenEntries tok = ascRange f l := by
  have hns : ¬(determine_host_type tok = HOST_TYPE_NAME
      ∨ determine_host_type tok = HOST_TYPE_IPV4
      ∨ determine_host_type tok = HOST_TYPE_IPV6) := by
    rcases hdet with h | h | h <;> rw [h] <;> decide
  unfold specTokenEntries
  rw [if_neg hns, if_pos hdet]
  simp only [hips]
  rw [if_neg hok]

theorem buildHosts_single {tok : List Char}
    (hnc : ∀ c ∈ tok, c ≠ ',' ∧ c ≠ '\n' ∧ cIsSpace c = false) (hne : tok ≠ []) :
    buildHosts (normalizeSep tok) = processToken {} tok := by
  rw [normalizeSep_eq_self (fun c hc => (hnc c hc).2.1)]
  unfold buildHosts
  rw [splitCommas_no_comma (fun c hc => (hnc c hc).1)]
  rw [List.foldl_cons, List.foldl_nil]
  simp only [g_strstrip_eq_self (fun c hc => (hnc c hc).2.2)]
  rw [if_neg hne]

theorem hosts_new_removed (l : List Char) :
    (openvas_hosts_new l).removed = (buildHosts (normalizeSep l)).removed +
      ((specOrder l).length - (specStableDedup (specOrder l)).length) := by
  unfold openvas_hosts_new openvas_hosts_remove_duplicates
  simp only [removeDupsGo_eq, buildHosts_hosts, List.reverse_reverse]

theorem cidr_expansion_general {a ds : List Char} {bytes : List Nat}
    (hpa : inet_pton4 a = some bytes) (hne : ds ≠ []) (hds : ∀ c ∈ ds, isDigitC c = true)
    (hlen2 : ds.length ≤ 2) (h1 : 1 ≤ digitsVal ds) (h30 : digitsVal ds ≤ 30) :
    (openvas_hosts_new (a ++ '/' :: ds)).hosts =
      (List.range (2 ^ (32 - digitsVal ds) - 2)).map
        (fun i => mkIPv4 ((addrOfBytes bytes &&& cidrMask (digitsVal ds)) + 1 + i)) ∧
    (openvas_hosts_new (a ++ '/' :: ds)).removed = 0 := by
  have hdet := determine_of_cidr_form hpa hne hds h1 h30
  have hdet3 : determine_host_type (a ++ '/' :: ds) = HOST_TYPE_CIDR_BLOCK
      ∨ determine_host_type (a ++ '/' :: ds) = HOST_TYPE_RANGE_SHORT
      ∨ determine_host_type (a ++ '/' :: ds) = HOST_TYPE_RANGE_LONG := Or.inl hdet
  have hips : ipsFunc (determine_host_type (a ++ '/' :: ds)) (a ++ '/' :: ds) =
      some ((addrOfBytes bytes &&& cidrMask (digitsVal ds)) + 1,
            (addrOfBytes bytes &&& cidrMask (digitsVal ds)) + (2 ^ (32 - digitsVal ds) - 2)) := by
    rw [hdet]
    unfold ipsFunc
    rw [if_pos rfl]
    exact cidr_block_ips_form hpa hne hds hlen2 h1 h30
  have h4 := pow_sub_ge h30
  have hok : ¬((addrOfBytes bytes &&& cidrMask (digitsVal ds)) + (2 ^ (32 - digitsVal ds) - 2)
      < (addrOfBytes bytes &&& cidrMask (digitsVal ds)) + 1) := by omega
  have hasc : ascRange ((addrOfBytes bytes &&& cidrMask (digitsVal ds)) + 1)
      ((addrOfBytes bytes &&& cidrMask (digitsVal ds)) + (2 ^ (32 - digitsVal ds) - 2)) =
      (List.range (2 ^ (32 - digitsVal ds) - 2)).map
        (fun i => mkIPv4 ((addrOfBytes bytes &&& cidrMask (digitsVal ds)) + 1 + i)) := by
    rw [ascRange_eq_map]
    have he : (addrOfBytes bytes &&& cidrMask (digitsVal ds)) + (2 ^ (32 - digitsVal ds) - 2)
        + 1 - ((addrOfBytes bytes &&& cidrMask (digitsVal ds)) + 1) =
        2 ^ (32 - digitsVal ds) - 2 := by omega
    rw [he]
  have hpair := hasc ▸ pairwise_map_range ((addrOfBytes bytes &&& cidrMask (digitsVal ds)) + 1)
    (2 ^ (32 - digitsVal ds) - 2)
  have hsep := cidr_token_sep_free hpa hds
  have hne' : a ++ '/' :: ds ≠ [] := by simp
  have hspec : specOrder (a ++ '/' :: ds) = ascRange
      ((addrOfBytes bytes &&& cidrMask (digitsVal ds)) + 1)
      ((addrOfBytes bytes &&& cidrMask (digitsVal ds)) + (2 ^ (32 - digitsVal ds) - 2)) := by
    rw [specOrder_single hsep hne', specTokenEntries_range_ok hdet3 hips hok]
  constructor
  · rw [hosts_new_hosts, hspec, specStableDedup_eq_self hpair, hasc]
  · rw [hosts_new_removed, hspec, specStableDedup_eq_self hpair]
    rw [buildHosts_single hsep hne', processToken_range_ok {} hdet3 hips hok]
    simp

/-! ## Claim theorems -/

/-- C1 (counterexample): the claim says an inverted range increments the
rejection counter by 1; parsing "10.0.0.10-10.0.0.5" in fact yields 0 entries
and a rejection count of 0, not 1. -/
theorem c1_counterexample :
    openvas_hosts_count (some (openvas_hosts_new "10.0.0.10-10.0.0.5".toList)) = 0 ∧
    openvas_hosts_removed (some (openvas_hosts_new "10.0.0.10-10.0.0.5".toList)) = 0 := by
  constructor <;> decide

/-- C1 (amended): a range or block token whose computed first address exceeds
its last contributes 0 entries and emits one "Inversed limits" diagnostic, but
the collection's rejection counter is NOT incremented — the hosts list and the
`removed` field of the scan state are left unchanged; only a log entry is
added. -/
theorem c1_inverted_limits (st : BuildState) (tok : List Char) (f l : Nat)
    (hdet : determine_host_type tok = HOST_TYPE_CIDR_BLOCK
      ∨ determine_host_type tok = HOST_TYPE_RANGE_SHORT
      ∨ determine_host_type tok = HOST_TYPE_RANGE_LONG)
    (hips : ipsFunc (determine_host_type tok) tok = some (f, l)) (hinv : l < f) :
    processToken st tok = { st with logs := LogMsg.invLimits tok :: st.logs } :=
  processToken_range_inverted st hdet hips hinv

/-- C1 witness: the inverted long range "10.0.0.10-10.0.0.5" hits the theorem's
hypotheses and leaves the scan state's hosts and removed count unchanged. -/
theorem c1_witness :
    processToken {} "10.0.0.10-10.0.0.5".toList =
      { hosts := [], removed := 0,
        logs := [LogMsg.invLimits "10.0.0.10-10.0.0.5".toList] } :=
  c1_inverted_limits {} "10.0.0.10-10.0.0.5".toList 167772170 167772165
    (Or.inr (Or.inr (by decide))) (by decide) (by decide)

/-- C2 (counterexample): the claim says resolve on a non-Name entry returns a
WrongVariant error rather than reporting success; the code returns 0 — the
success code (the error code is -1) — for an IPv4 entry, even with a usable
resolver response available. -/
theorem c2_counterexample :
    openvas_host_resolve (some { type_ := HOST_TYPE_IPV4, addr := 167772161 }) false AF_INET
      (some [⟨AF_INET, [10, 0, 0, 1]⟩]) = (0, none) ∧ (0 : Int) ≠ -1 := by
  constructor
  · decide
  · decide

/-- C2 (amended): calling resolve on an entry whose variant is not Name
performs no resolution, leaves the destination buffer unwritten, and returns
0 — the same value it returns on success — so the caller receives no
distinguishable WrongVariant (or any other) error. -/
theorem c2_resolve_non_name (h : OHost) (dstNull : Bool) (family : Int)
    (gai : Option (List AddrInfo)) (hne : h.type_ ≠ HOST_TYPE_NAME) :
    openvas_host_resolve (some h) dstNull family gai = (0, none) := by
  cases dstNull
  · simp only [openvas_host_resolve, Bool.false_eq_true, if_false]
    rw [if_pos hne]
  · simp [openvas_host_resolve]

/-- C2 witness: an IPv4 entry with a failing resolver oracle still gets
return value 0 and an untouched destination. -/
theorem c2_witness :
    openvas_host_resolve (some (mkIPv4 5)) false AF_INET6 none = (0, none) :=
  c2_resolve_non_name (mkIPv4 5) false AF_INET6 none (by decide)

/-- C3 (code bug): for a Name entry, when the external resolver succeeds but
reports no address of the requested family, `openvas_host_resolve` falls out
of its scan loop and returns 0 (success) without writing `dst`, and
`openvas_host_addr6` then returns 0 with no defined address — both contradict
the claimed (and documented) behaviour of failing with -1; -1 is produced only
when the resolver call itself fails.  The final conjunct shows the intended
matching-family path for contrast. -/
theorem c3_resolver_family_mismatch :
    openvas_host_resolve (some { type_ := HOST_TYPE_NAME, name := "example.com".toList })
      false AF_INET (some [⟨AF_INET6, List.replicate 16 7⟩]) = (0, none) ∧
    openvas_host_addr6 (some { type_ := HOST_TYPE_NAME, name := "example.com".toList })
      false (some [⟨AF_INET6, List.replicate 16 7⟩]) = (0, none) ∧
    openvas_host_resolve (some { type_ := HOST_TYPE_NAME, name := "example.com".toList })
      false AF_INET none = (-1, none) ∧
    openvas_host_resolve (some { type_ := HOST_TYPE_NAME, name := "example.com".toList })
      false AF_INET (some [⟨AF_INET6, List.replicate 16 7⟩, ⟨AF_INET, [10, 0, 0, 1]⟩]) =
      (0, some [10, 0, 0, 1]) := by
  refine ⟨by decide, by decide, by decide, by decide⟩

set_option maxRecDepth 16384 in
/-- C4: expanding a CIDR block token "A/p" (prefix written with one or two
digits, value in [1,30]) yields exactly 2^(32-p) - 2 IPv4 entries in ascending
numeric order starting at (A & mask(p)) + 1 — network and broadcast excluded —
with nothing rejected; in particular "10.0.0.0/24" yields the 254 entries
10.0.0.1 (= 167772161) through 10.0.0.254 (= 167772414). -/
theorem c4_cidr_expansion :
    (∀ (a ds : List Char) (bytes : List Nat),
      inet_pton4 a = some bytes → ds ≠ [] → (∀ c ∈ ds, isDigitC c = true) →
      ds.length ≤ 2 → 1 ≤ digitsVal ds → digitsVal ds ≤ 30 →
      (openvas_hosts_new (a ++ '/' :: ds)).hosts =
        (List.range (2 ^ (32 - digitsVal ds) - 2)).map
          (fun i => mkIPv4 ((addrOfBytes bytes &&& cidrMask (digitsVal ds)) + 1 + i)) ∧
      openvas_hosts_count (some (openvas_hosts_new (a ++ '/' :: ds))) =
        2 ^ (32 - digitsVal ds) - 2 ∧
      (openvas_hosts_new (a ++ '/' :: ds)).removed = 0) ∧
    (openvas_hosts_new "10.0.0.0/24".toList).hosts =
      (List.range 254).map (fun i => mkIPv4 (167772161 + i)) ∧
    openvas_hosts_count (some (openvas_hosts_new "10.0.0.0/24".toList)) = 254 := by
  have hgen : ∀ (a ds : List Char) (bytes : List Nat),
      inet_pton4 a = some bytes → ds ≠ [] → (∀ c ∈ ds, isDigitC c = true) →
      ds.length ≤ 2 → 1 ≤ digitsVal ds → digitsVal ds ≤ 30 →
      (openvas_hosts_new (a ++ '/' :: ds)).hosts =
        (List.range (2 ^ (32 - digitsVal ds) - 2)).map
          (fun i => mkIPv4 ((addrOfBytes bytes &&& cidrMask (digitsVal ds)) + 1 + i)) ∧
      openvas_hosts_count (some (openvas_hosts_new (a ++ '/' :: ds))) =
        2 ^ (32 - digitsVal ds) - 2 ∧
      (openvas_hosts_new (a ++ '/' :: ds)).removed = 0 := by
    intro a ds bytes hpa hne hds hl2 h1 h30
    obtain ⟨hh, hr⟩ := cidr_expansion_general hpa hne hds hl2 h1 h30
    refine ⟨hh, ?_, hr⟩
    show (openvas_hosts_new (a ++ '/' :: ds)).hosts.length = 2 ^ (32 - digitsVal ds) - 2
    rw [hh]
    simp
  have heq : "10.0.0.0/24".toList = "10.0.0.0".toList ++ '/' :: "24".toList := by decide
  refine ⟨hgen, ?_, ?_⟩
  · rw [heq]
    obtain ⟨hh, -, -⟩ := hgen "10.0.0.0".toList "24".toList [10, 0, 0, 0] (by decide) (by decide)
      (by decide) (by decide) (by decide) (by decide)
    rw [hh]
    decide
  · rw [heq]
    obtain ⟨-, hc, -⟩ := hgen "10.0.0.0".toList "24".toList [10, 0, 0, 0] (by decide) (by decide)
      (by decide) (by decide) (by decide) (by decide)
    rw [hc]
    decide

/-- C4 witness: the /30 block on 192.168.1.0 expands per the theorem. -/
theorem c4_witness :
    (openvas_hosts_new ("192.168.1.0".toList ++ '/' :: "30".toList)).hosts =
      (List.range (2 ^ (32 - digitsVal "30".toList) - 2)).map
        (fun i => mkIPv4
          ((addrOfBytes [192, 168, 1, 0] &&& cidrMask (digitsVal "30".toList)) + 1 + i)) :=
  (c4_cidr_expansion.1 "192.168.1.0".toList "30".toList [192, 168, 1, 0] (by decide) (by decide)
    (by decide) (by decide) (by decide) (by decide)).1

/-- C5 (counterexample): the claim says a prefix written with more than two
digits never classifies as CIDRBlock; "10.0.0.0/024" (three digits, value 24)
is classified as a CIDR block, because `is_cidr_block` validates the suffix
with `strtol`, which accepts leading zeros and any digit count. -/
theorem c5_counterexample :
    determine_host_type "10.0.0.0/024".toList = HOST_TYPE_CIDR_BLOCK := by decide

/-- C5 (amended): a stripped token that is not an exact IPv4 or IPv6 literal
is classified as CIDRBlock exactly when it is an IPv4 literal, a '/' and a
nonempty all-digit suffix whose decimal value lies in [1,30]; the digit count
of the suffix is NOT limited to two (leading zeros are accepted), while
prefix 0, 31, 32, non-numeric or trailing-garbage suffixes do not classify. -/
theorem c5_cidr_classification (l : List Char) (h4 : is_ipv4_address l = false)
    (h6 : is_ipv6_address l = false) :
    determine_host_type l = HOST_TYPE_CIDR_BLOCK ↔ specCidrForm l := by
  by_cases hnil : l = []
  · subst hnil
    constructor
    · intro h; exact absurd h (by decide)
    · rintro ⟨a, ds, habs, -⟩
      exact absurd habs (by simp)
  · unfold determine_host_type
    rw [if_neg hnil]
    simp only [h4, h6, Bool.false_eq_true, if_false]
    by_cases hc : is_cidr_block l
    · rw [if_pos hc]
      exact iff_of_true rfl (is_cidr_block_iff.mp hc)
    · rw [if_neg hc]
      refine iff_of_false ?_ (fun hs => hc (is_cidr_block_iff.mpr hs))
      split
      · decide
      · split
        · decide
        · split
          · decide
          · decide

/-- C5 witness: "10.0.0.0/024" is neither an IPv4 nor an IPv6 literal, and the
classification equivalence holds there. -/
theorem c5_witness :
    determine_host_type "10.0.0.0/024".toList = HOST_TYPE_CIDR_BLOCK ↔
      specCidrForm "10.0.0.0/024".toList :=
  c5_cidr_classification "10.0.0.0/024".toList (by decide) (by decide)

/-- C6: deduplication removes every later duplicate (no two surviving entries
compare equal), keeps the earliest copy (every original entry is equal to some
survivor, and survivors form an order-preserving sublist of the original),
increments the rejection count once per removed duplicate (by the length
difference), and resets the cursor; parsing "10.0.0.1,10.0.0.1,10.0.0.1"
yields 1 entry with rejection count 2. -/
theorem c6_dedup :
    (∀ c : OHosts,
      (openvas_hosts_remove_duplicates c).hosts = specStableDedup c.hosts ∧
      (openvas_hosts_remove_duplicates c).hosts.Sublist c.hosts ∧
      List.Pairwise (fun a b => openvas_host_equal a b = false)
        (openvas_hosts_remove_duplicates c).hosts ∧
      (∀ x ∈ c.hosts, ∃ y ∈ (openvas_hosts_remove_duplicates c).hosts,
        openvas_host_equal y x = true ∨ y = x) ∧
      (openvas_hosts_remove_duplicates c).removed =
        c.removed + (c.hosts.length - (openvas_hosts_remove_duplicates c).hosts.length) ∧
      (openvas_hosts_remove_duplicates c).current = 0) ∧
    openvas_hosts_count (some (openvas_hosts_new "10.0.0.1,10.0.0.1,10.0.0.1".toList)) = 1 ∧
    openvas_hosts_removed (some (openvas_hosts_new "10.0.0.1,10.0.0.1,10.0.0.1".toList)) = 2 := by
  refine ⟨fun c => ?_, by decide, by decide⟩
  have hcomp : openvas_hosts_remove_duplicates c =
      { c with hosts := specStableDedup c.hosts,
               removed := c.removed + (c.hosts.length - (specStableDedup c.hosts).length),
               current := 0 } := by
    unfold openvas_hosts_remove_duplicates
    rw [removeDupsGo_eq]
  rw [hcomp]
  exact ⟨rfl, specStableDedup_sublist _, specStableDedup_pairwise _, specStableDedup_mem _,
    rfl, rfl⟩

/-- C6 witness: a two-element duplicate list keeps a copy equal to the
original entry. -/
theorem c6_witness :
    ∃ y ∈ (openvas_hosts_remove_duplicates
        ⟨[], [mkIPv4 1, mkIPv4 1], 0, 0, []⟩).hosts,
      openvas_host_equal y (mkIPv4 1) = true ∨ y = mkIPv4 1 :=
  (c6_dedup.1 ⟨[], [mkIPv4 1, mkIPv4 1], 0, 0, []⟩).2.2.2.1 (mkIPv4 1) (by decide)

/-- C7: for an input whose expanded token sequence has no duplicates (so
deduplication removes nothing) and with no shuffle applied, the n-th call of
next returns the n-th entry of the left-to-right, first-occurrence token-scan
order with each range/block expansion ascending — even though construction
prepends and reverses internally. -/
theorem c7_iteration_order (s : List Char)
    (hp : List.Pairwise (fun a b => openvas_host_equal a b = false) (specOrder s)) :
    ∀ n : Nat, nextCalls (some (openvas_hosts_new s)) n = (specOrder s)[n]? := by
  intro n
  rw [nextCalls_get]
  rw [hosts_new_current, hosts_new_hosts, specStableDedup_eq_self hp]
  simp

/-- C7 witness: for "10.0.0.2,10.0.0.1" the second next() call returns the
second token's entry. -/
theorem c7_witness :
    nextCalls (some (openvas_hosts_new "10.0.0.2,10.0.0.1".toList)) 1 =
      (specOrder "10.0.0.2,10.0.0.1".toList)[1]? :=
  c7_iteration_order "10.0.0.2,10.0.0.1".toList (by decide) 1

/-- C8: for every collection and every stream of random draws, the shuffled
collection holds a permutation of the original entries (count and removed
unchanged), and the cursor is reset to the first entry. -/
theorem c8_shuffle_permutation (c : OHosts) (picks : Nat → Nat) :
    (openvas_hosts_shuffle c picks).hosts.Perm c.hosts ∧
    openvas_hosts_count (some (openvas_hosts_shuffle c picks)) = openvas_hosts_count (some c) ∧
    (openvas_hosts_shuffle c picks).removed = c.removed ∧
    (openvas_hosts_shuffle c picks).current = 0 := by
  refine ⟨hosts_shuffle_perm c picks, ?_, rfl, rfl⟩
  exact (hosts_shuffle_perm c picks).length_eq

/-- C9: every entry of a parsed collection carries one of the three entry
variant tags Name, IPv4 or IPv6 — the classifier-only kinds never occur as
stored tags — and in particular every entry returned by next() does; so the
"erroneous host type" default branch of the display function is unreachable
on parsed entries. -/
theorem c9_entry_tags (s : List Char) (h : OHost) :
    (h ∈ (openvas_hosts_new s).hosts →
      openvas_host_type (some h) = HOST_TYPE_NAME ∨
      openvas_host_type (some h) = HOST_TYPE_IPV4 ∨
      openvas_host_type (some h) = HOST_TYPE_IPV6) ∧
    (∀ n : Nat, nextCalls (some (openvas_hosts_new s)) n = some h →
      openvas_host_type (some h) = HOST_TYPE_NAME ∨
      openvas_host_type (some h) = HOST_TYPE_IPV4 ∨
      openvas_host_type (some h) = HOST_TYPE_IPV6) := by
  have main : h ∈ (openvas_hosts_new s).hosts →
      openvas_host_type (some h) = HOST_TYPE_NAME ∨
      openvas_host_type (some h) = HOST_TYPE_IPV4 ∨
      openvas_host_type (some h) = HOST_TYPE_IPV6 := by
    intro hm
    rw [hosts_new_hosts] at hm
    have hmo : h ∈ specOrder s := (specStableDedup_sublist _).subset hm
    unfold specOrder at hmo
    obtain ⟨tok, -, htk⟩ := List.mem_flatMap.mp hmo
    exact specTokenEntries_tag tok h htk
  refine ⟨main, fun n hn => ?_⟩
  rw [nextCalls_get] at hn
  exact main (List.getElem?_mem hn)

/-- C9 witness: the sole entry parsed from "a" is a Name entry. -/
theorem c9_witness :
    openvas_host_type (some ({ type_ := HOST_TYPE_NAME, name := ['a'] } : OHost))
        = HOST_TYPE_NAME ∨
    openvas_host_type (some ({ type_ := HOST_TYPE_NAME, name := ['a'] } : OHost))
        = HOST_TYPE_IPV4 ∨
    openvas_host_type (some ({ type_ := HOST_TYPE_NAME, name := ['a'] } : OHost))
        = HOST_TYPE_IPV6 :=
  (c9_entry_tags "a".toList { type_ := HOST_TYPE_NAME, name := ['a'] }).1 (by decide)

/-- C10: the read accessors are total on a null handle: next on a null
collection signals end of sequence, count and removed return 0, and type on a
null entry returns -1. -/
theorem c10_null_accessors :
    openvas_hosts_next none = (none, none) ∧ openvas_hosts_count none = 0 ∧
    openvas_hosts_removed none = 0 ∧ openvas_host_type none = -1 :=
  ⟨rfl, rfl, rfl, rfl⟩

end OpenvasHosts
